import Mathlib

/-!
Verification of the hybrid retrieval engine in scripts/memory-search.py.

Shallow embedding conventions:
- Python str values are Lean String; Python len counts codepoints, matching
  String.length.
- Python floats are modeled by exact rationals.  Every numeric statement
  proved here is robust to that choice: the arithmetic involved is either
  exact in IEEE double as well (sums of two reciprocals compared for
  equality after commuting, small integer ratios) or strict comparisons far
  from the threshold.
- SQLite tables are modeled as lists of rows in insertion order; the FTS5
  engine internals (MATCH, bm25 rank, snippet) are external to the script
  and enter as an oracle parameter, as do the embedding provider, json
  parsing, the md5 digest and file fingerprints.
-/

set_option maxHeartbeats 2000000
set_option maxRecDepth 4096

namespace MemorySearch

attribute [local semireducible] Rat.add Rat.mul Rat.inv Rat.sub Rat.ofScientific

/-! ### Python string primitives used by the script -/

/-- Whitespace recognized by Python str.split and str.strip (ASCII range;
the rare unicode whitespace codepoints are not used anywhere relevant). -/
def pyIsSpace (c : Char) : Bool :=
  c = ' ' || c = '\t' || c = '\n' || c = '\r' || c = '\x0b' || c = '\x0c'

/-- Python str.strip on a list of characters. -/
def stripChars (l : List Char) : List Char :=
  ((l.dropWhile pyIsSpace).reverse.dropWhile pyIsSpace).reverse

/-- Python str.strip. -/
def pyStrip (s : String) : String :=
  String.mk (stripChars s.toList)

/-- Helper for pySplitWs: acc is the current token, reversed. -/
def splitWsAux : List Char → List Char → List (List Char)
  | [], acc => if acc.isEmpty then [] else [acc.reverse]
  | c :: cs, acc =>
    if pyIsSpace c then
      if acc.isEmpty then splitWsAux cs [] else acc.reverse :: splitWsAux cs []
    else splitWsAux cs (c :: acc)

/-- Python str.split with no separator: split on runs of whitespace,
dropping empty pieces. -/
def pySplitWs (s : String) : List String :=
  (splitWsAux s.toList []).map String.mk

/-- True when pat occurs at the start of l. -/
def listStarts : List Char → List Char → Bool
  | [], _ => true
  | _ :: _, [] => false
  | p :: ps, c :: cs => p = c && listStarts ps cs

/-- True when pat occurs anywhere inside l (Python substring test). -/
def listHasSub (pat : List Char) : List Char → Bool
  | [] => pat.isEmpty
  | c :: cs => listStarts pat (c :: cs) || listHasSub pat cs

/-- Python "pat in hay" on strings. -/
def strContainsStr (hay pat : String) : Bool :=
  listHasSub pat.toList hay.toList

/-- Python s.startswith(pre).  (Structural stand-in for the library
function of the same meaning, so that terms evaluate inside the kernel.) -/
def pyStartsWith (s pre : String) : Bool :=
  listStarts pre.toList s.toList

/-- Python s.endswith(suf). -/
def pyEndsWith (s suf : String) : Bool :=
  listStarts suf.toList.reverse s.toList.reverse

/-- Python s[:n], slicing by codepoints. -/
def pyTake (s : String) (n : Nat) : String :=
  String.mk (s.toList.take n)

/-- Helper for pySplitLines: split at each newline character, keeping
empty pieces, exactly like Python str.split with an explicit separator. -/
def splitLinesAux : List Char → List Char → List (List Char)
  | [], acc => [acc.reverse]
  | c :: cs, acc =>
    if c = '\n' then acc.reverse :: splitLinesAux cs [] else splitLinesAux cs (c :: acc)

/-- Python content.split with separator a newline. -/
def pySplitLines (s : String) : List String :=
  (splitLinesAux s.toList []).map String.mk

/-- Fuel-driven replace-all: at a match, emit the replacement and skip
the matched characters; fuel bounds the number of scan steps by the input
length. -/
def replFuel (pat rep : List Char) : Nat → List Char → List Char
  | 0, l => l
  | _, [] => []
  | fuel + 1, c :: cs =>
    if listStarts pat (c :: cs) then
      rep ++ replFuel pat rep fuel (List.drop (pat.length - 1) cs)
    else c :: replFuel pat rep fuel cs

/-- Python s.replace(pat, rep) replacing every non-overlapping occurrence
left to right.  The script only ever calls it with a non-empty pattern,
so the empty-pattern interleaving behaviour of Python is not modeled. -/
def pyReplace (s pat rep : String) : String :=
  if pat = "" then s
  else String.mk (replFuel pat.toList rep.toList s.toList.length s.toList)

/-! ### sanitize_fts_query (lines 535-568 of the source) -/

/-- Membership in the two CJK codepoint ranges of the regex
U+4E00-U+9FFF and U+3400-U+4DBF. -/
def isCJKChar (c : Char) : Bool :=
  (0x4e00 ≤ c.toNat && c.toNat ≤ 0x9fff) || (0x3400 ≤ c.toNat && c.toNat ≤ 0x4dbf)

/-- re.sub removing every non-CJK character. -/
def cjkPartOf (s : String) : String :=
  String.mk (s.toList.filter isCJKChar)

/-- re.sub removing every CJK character, then str.strip. -/
def nonCjkPartOf (s : String) : String :=
  pyStrip (String.mk (s.toList.filter (fun c => !isCJKChar c)))

/-- Python t.replace of a double quote by two double quotes. -/
def escapeQuotes (s : String) : String :=
  String.mk (s.toList.flatMap (fun c => if c = '"' then ['"', '"'] else [c]))

/-- Body of the token loop of sanitize_fts_query from the source: strip
the token, skip it when empty, otherwise append the compiled terms. -/
def sanitizeStep (acc : List String) (t0 : String) : List String :=
  if pyStrip t0 = "" then acc
  else if cjkPartOf (pyStrip t0) ≠ "" && nonCjkPartOf (pyStrip t0) = "" then
    acc ++ [cjkPartOf (pyStrip t0) ++ "*"]
  else if cjkPartOf (pyStrip t0) ≠ "" && nonCjkPartOf (pyStrip t0) ≠ "" then
    acc ++ [cjkPartOf (pyStrip t0) ++ "*",
            "\"" ++ escapeQuotes (nonCjkPartOf (pyStrip t0)) ++ "\""]
  else acc ++ ["\"" ++ escapeQuotes (pyStrip t0) ++ "\""]

/-- sanitize_fts_query from the source: whitespace-split the query, turn a
pure-CJK token into a star-suffixed term, a mixed token into a CJK term
plus a quoted remainder, anything else into a quoted term. -/
def sanitize_fts_query (query : String) : String :=
  String.intercalate " " ((pySplitWs query).foldl sanitizeStep [])

/-- Token-level mapping as the specification words it: a pure-CJK token
becomes a star-suffixed term, a mixed token contributes a CJK term and a
quoted remainder, a token without CJK characters becomes a quoted term. -/
def specTokenTerms (t : String) : List String :=
  if cjkPartOf t ≠ "" && nonCjkPartOf t = "" then [cjkPartOf t ++ "*"]
  else if cjkPartOf t ≠ "" && nonCjkPartOf t ≠ "" then
    [cjkPartOf t ++ "*", "\"" ++ escapeQuotes (nonCjkPartOf t) ++ "\""]
  else ["\"" ++ escapeQuotes t ++ "\""]

/-- Query compilation as the specification words it: split on whitespace
and concatenate the per-token terms. -/
def sanitizeSpec (q : String) : String :=
  String.intercalate " " ((pySplitWs q).flatMap specTokenTerms)

/-! ### Lemmas about the string primitives -/

lemma dropWhile_eq_self_of (p : Char → Bool) :
    ∀ l : List Char, (∀ c ∈ l, p c = false) → l.dropWhile p = l
  | [], _ => rfl
  | c :: cs, h => by
    have hc : p c = false := h c (List.mem_cons_self c cs)
    simp [List.dropWhile_cons, hc]

lemma stripChars_eq_self (l : List Char) (h : ∀ c ∈ l, pyIsSpace c = false) :
    stripChars l = l := by
  unfold stripChars
  rw [dropWhile_eq_self_of _ l h,
      dropWhile_eq_self_of _ l.reverse (fun c hc => h c (List.mem_reverse.mp hc)),
      List.reverse_reverse]

lemma pyStrip_of_noWs (t : String) (h : ∀ c ∈ t.toList, pyIsSpace c = false) :
    pyStrip t = t := by
  unfold pyStrip
  rw [stripChars_eq_self _ h]
  rfl

lemma splitWsAux_tokens (l : List Char) :
    ∀ acc : List Char, (∀ c ∈ acc, pyIsSpace c = false) →
      ∀ t ∈ splitWsAux l acc, t ≠ [] ∧ ∀ c ∈ t, pyIsSpace c = false := by
  induction l with
  | nil =>
    intro acc hacc t ht
    rw [splitWsAux] at ht
    by_cases hae : acc.isEmpty
    · rw [if_pos hae] at ht; simp at ht
    · rw [if_neg hae, List.mem_singleton] at ht
      subst ht
      refine ⟨?_, fun c hc => hacc c (List.mem_reverse.mp hc)⟩
      intro h'
      rw [List.reverse_eq_nil_iff] at h'
      rw [h'] at hae
      simp at hae
  | cons c cs ih =>
    intro acc hacc t ht
    by_cases hsp : pyIsSpace c = true
    · rw [splitWsAux, if_pos hsp] at ht
      by_cases hae : acc.isEmpty
      · rw [if_pos hae] at ht
        exact ih [] (by simp) t ht
      · rw [if_neg hae] at ht
        rcases List.mem_cons.mp ht with h | h
        · subst h
          refine ⟨?_, fun x hx => hacc x (List.mem_reverse.mp hx)⟩
          intro h'
          rw [List.reverse_eq_nil_iff] at h'
          rw [h'] at hae
          simp at hae
        · exact ih [] (by simp) t h
    · rw [splitWsAux, if_neg hsp] at ht
      refine ih (c :: acc) ?_ t ht
      intro x hx
      rcases List.mem_cons.mp hx with h | h
      · subst h
        exact Bool.not_eq_true _ ▸ (by simpa using hsp)
      · exact hacc x h

lemma pySplitWs_tokens (s : String) :
    ∀ t ∈ pySplitWs s, pyStrip t = t ∧ t ≠ "" := by
  intro t ht
  unfold pySplitWs at ht
  rcases List.mem_map.mp ht with ⟨tl, htl, rfl⟩
  obtain ⟨hne, hnw⟩ := splitWsAux_tokens s.toList [] (by simp) tl htl
  constructor
  · exact pyStrip_of_noWs _ (fun c hc => hnw c hc)
  · intro h
    exact hne (congrArg String.data h)

lemma sanitizeStep_eq (acc : List String) (t0 : String)
    (h1 : pyStrip t0 = t0) (h2 : t0 ≠ "") :
    sanitizeStep acc t0 = acc ++ specTokenTerms t0 := by
  unfold sanitizeStep specTokenTerms
  rw [h1, if_neg h2]
  split_ifs <;> rfl

lemma foldl_sanitizeStep (tokens : List String) :
    ∀ acc : List String, (∀ t ∈ tokens, pyStrip t = t ∧ t ≠ "") →
      tokens.foldl sanitizeStep acc = acc ++ tokens.flatMap specTokenTerms := by
  induction tokens with
  | nil => intro acc _; simp
  | cons t ts ih =>
    intro acc h
    have ht := h t (List.mem_cons_self t ts)
    rw [List.foldl_cons, ih (sanitizeStep acc t) (fun x hx => h x (List.mem_cons_of_mem t hx)),
        sanitizeStep_eq acc t ht.1 ht.2, List.flatMap_cons, List.append_assoc]

/-! ### Chunker: chunk_markdown (lines 246-298 of the source) -/

/-- One chunk draft as produced by the chunkers. -/
structure Chunk where
  title : String
  content : String
  line_start : Nat
  line_end : Nat
deriving DecidableEq, Repr

/-- os.path.basename: everything after the last slash. -/
def basename (p : String) : String :=
  String.mk ((p.toList.reverse.takeWhile (fun c => c ≠ '/')).reverse)

/-- Loop state of chunk_markdown: current title, accumulated lines in
order, 1-based start line of the accumulation, chunks emitted so far. -/
structure MdState where
  title : String
  cur : List String
  start : Nat
  chunks : List Chunk
deriving Repr

/-- Join the accumulated lines, strip, and append a chunk when the
stripped text is longer than 20 characters, as the source does at each of
its three emission sites. -/
def mdEmit (title : String) (cur : List String) (startL endL : Nat)
    (chunks : List Chunk) : List Chunk :=
  if 20 < (pyStrip (String.intercalate "\n" cur)).length then
    chunks ++ [⟨title, pyStrip (String.intercalate "\n" cur), startL, endL⟩]
  else chunks

/-- The for-loop of chunk_markdown; i is the 1-based index of the line at
the head of the remaining list. -/
def mdLoop (maxLines : Nat) : Nat → List String → MdState → MdState
  | _, [], st => st
  | i, line :: rest, st =>
    if pyStartsWith line "#" && !st.cur.isEmpty then
      let t := pyStrip (String.mk (line.toList.dropWhile (fun c => c = '#')))
      mdLoop maxLines (i + 1) rest
        ⟨if t = "" then st.title else t, [line], i,
         mdEmit st.title st.cur st.start (i - 1) st.chunks⟩
    else
      if maxLines ≤ (st.cur ++ [line]).length then
        mdLoop maxLines (i + 1) rest
          ⟨st.title, [], i + 1, mdEmit st.title (st.cur ++ [line]) st.start i st.chunks⟩
      else
        mdLoop maxLines (i + 1) rest ⟨st.title, st.cur ++ [line], st.start, st.chunks⟩

/-- chunk_markdown from the source: split into lines, cut at heading
lines when the accumulation is non-empty and at the maximum line count,
then flush the trailing accumulation. -/
def chunk_markdown (content filepath : String) (maxLines : Nat) : List Chunk :=
  let lines := pySplitLines content
  let st := mdLoop maxLines 1 lines ⟨basename filepath, [], 1, []⟩
  if st.cur.isEmpty then st.chunks
  else mdEmit st.title st.cur st.start lines.length st.chunks

/-! ### pyStrip produces stripped output (idempotence) -/

lemma dropWhile_head_not (p : Char → Bool) :
    ∀ (l : List Char) (c : Char), (l.dropWhile p).head? = some c → p c = false
  | [], c, h => by simp at h
  | a :: as, c, h => by
    by_cases ha : p a = true
    · rw [List.dropWhile_cons, if_pos ha] at h
      exact dropWhile_head_not p as c h
    · rw [List.dropWhile_cons, if_neg ha] at h
      simp only [List.head?_cons, Option.some_inj] at h
      subst h
      simpa using ha

lemma exists_append_dropWhile (p : Char → Bool) :
    ∀ l : List Char, ∃ t, l = t ++ l.dropWhile p
  | [] => ⟨[], rfl⟩
  | c :: cs => by
    by_cases hc : p c = true
    · obtain ⟨t, ht⟩ := exists_append_dropWhile p cs
      refine ⟨c :: t, ?_⟩
      rw [List.dropWhile_cons, if_pos hc, List.cons_append]
      exact congrArg (c :: ·) ht
    · exact ⟨[], by rw [List.dropWhile_cons, if_neg hc]; simp⟩

lemma stripChars_head_not (l : List Char) (c : Char)
    (h : (stripChars l).head? = some c) : pyIsSpace c = false := by
  unfold stripChars at h
  rw [List.head?_reverse] at h
  obtain ⟨t, ht⟩ :=
    exists_append_dropWhile pyIsSpace (l.dropWhile pyIsSpace).reverse
  by_cases hnil : (l.dropWhile pyIsSpace).reverse.dropWhile pyIsSpace = []
  · rw [hnil] at h; simp at h
  · have hmg : (l.dropWhile pyIsSpace).reverse.getLast? = some c := by
      rw [ht, List.getLast?_append_of_ne_nil t hnil]
      exact h
    rw [List.getLast?_reverse] at hmg
    exact dropWhile_head_not pyIsSpace l c hmg

lemma stripChars_last_not (l : List Char) (c : Char)
    (h : (stripChars l).getLast? = some c) : pyIsSpace c = false := by
  unfold stripChars at h
  rw [List.getLast?_reverse] at h
  exact dropWhile_head_not pyIsSpace _ c h

lemma dropWhile_eq_self_of_head (p : Char → Bool) (l : List Char)
    (h : ∀ c, l.head? = some c → p c = false) : l.dropWhile p = l := by
  cases l with
  | nil => rfl
  | cons a as => rw [List.dropWhile_cons, if_neg (by simp [h a rfl])]

lemma stripChars_idem (l : List Char) :
    stripChars (stripChars l) = stripChars l := by
  have h1 : (stripChars l).dropWhile pyIsSpace = stripChars l :=
    dropWhile_eq_self_of_head _ _ (fun c hc => stripChars_head_not l c hc)
  have h2 : (stripChars l).reverse.dropWhile pyIsSpace = (stripChars l).reverse :=
    dropWhile_eq_self_of_head _ _
      (fun c hc => stripChars_last_not l c (by rwa [List.head?_reverse] at hc))
  calc stripChars (stripChars l)
      = (((stripChars l).dropWhile pyIsSpace).reverse.dropWhile pyIsSpace).reverse := rfl
    _ = ((stripChars l).reverse.dropWhile pyIsSpace).reverse := by rw [h1]
    _ = (stripChars l).reverse.reverse := by rw [h2]
    _ = stripChars l := List.reverse_reverse _

lemma pyStrip_idem (s : String) : pyStrip (pyStrip s) = pyStrip s := by
  unfold pyStrip
  exact congrArg String.mk (stripChars_idem s.toList)

lemma pyStrip_length_mk (l : List Char) :
    (String.mk l).length = l.length := rfl

/-! ### Invariants of the chunk_markdown loop -/

/-- Well-formedness of an emitted chunk relative to an upper bound that
all previously processed lines satisfy: positive 1-based bounds, start at
most end, end strictly below the running accumulation start. -/
def chunkOk (bound : Nat) (c : Chunk) : Prop :=
  1 ≤ c.line_start ∧ c.line_start ≤ c.line_end ∧ c.line_end + 1 ≤ bound

lemma chunkOk_mono {b b' : Nat} (h : b ≤ b') {c : Chunk} (hc : chunkOk b c) :
    chunkOk b' c := ⟨hc.1, hc.2.1, hc.2.2.trans h⟩

/-- Chunk contents are emitted pre-stripped and longer than 20. -/
def contentOk (c : Chunk) : Prop :=
  20 < (pyStrip c.content).length

lemma mdEmit_cases (title : String) (cur : List String) (s e : Nat)
    (cs : List Chunk) :
    mdEmit title cur s e cs = cs ∨
    (mdEmit title cur s e cs =
       cs ++ [⟨title, pyStrip (String.intercalate "\n" cur), s, e⟩] ∧
     20 < (pyStrip (String.intercalate "\n" cur)).length) := by
  unfold mdEmit
  split_ifs with h
  · exact Or.inr ⟨rfl, h⟩
  · exact Or.inl rfl

lemma contentOk_emitted (cur : List String)
    (h : 20 < (pyStrip (String.intercalate "\n" cur)).length) :
    contentOk ⟨"t", pyStrip (String.intercalate "\n" cur), 0, 0⟩ := by
  unfold contentOk
  simpa [pyStrip_idem] using h

lemma mdEmit_inv (title : String) (cur : List String) (s e bound : Nat)
    (cs : List Chunk) (hs1 : 1 ≤ s) (hse : s ≤ e) (heb : e + 1 ≤ bound)
    (h3 : ∀ c ∈ cs, chunkOk s c ∧ contentOk c)
    (h4 : List.Chain' (fun a b => a.line_end < b.line_start) cs) :
    (∀ c ∈ mdEmit title cur s e cs, chunkOk bound c ∧ contentOk c) ∧
    List.Chain' (fun a b => a.line_end < b.line_start) (mdEmit title cur s e cs) := by
  have hsb : s ≤ bound := by omega
  rcases mdEmit_cases title cur s e cs with he | ⟨he, hg⟩
  · rw [he]
    exact ⟨fun c hc => ⟨chunkOk_mono hsb (h3 c hc).1, (h3 c hc).2⟩, h4⟩
  · rw [he]
    constructor
    · intro c hc
      rcases List.mem_append.mp hc with hc | hc
      · exact ⟨chunkOk_mono hsb (h3 c hc).1, (h3 c hc).2⟩
      · rw [List.mem_singleton] at hc
        subst hc
        refine ⟨⟨hs1, hse, heb⟩, ?_⟩
        show 20 < (pyStrip (pyStrip (String.intercalate "\n" cur))).length
        rw [pyStrip_idem]
        exact hg
    · rw [List.chain'_append]
      refine ⟨h4, List.chain'_singleton _, ?_⟩
      intro x hx y hy
      simp only [List.head?_cons, Option.mem_def, Option.some_inj] at hy
      subst hy
      have hlink : x.line_end + 1 ≤ s := (h3 x (List.mem_of_mem_getLast? hx)).1.2.2
      show x.line_end < s
      omega

lemma mdLoop_inv (maxLines : Nat) (rest : List String) :
    ∀ (i : Nat) (st : MdState),
      1 ≤ st.start →
      i = st.start + st.cur.length →
      (∀ c ∈ st.chunks, chunkOk st.start c ∧ contentOk c) →
      List.Chain' (fun a b => a.line_end < b.line_start) st.chunks →
      1 ≤ (mdLoop maxLines i rest st).start ∧
      i + rest.length =
        (mdLoop maxLines i rest st).start + (mdLoop maxLines i rest st).cur.length ∧
      (∀ c ∈ (mdLoop maxLines i rest st).chunks,
        chunkOk (mdLoop maxLines i rest st).start c ∧ contentOk c) ∧
      List.Chain' (fun a b => a.line_end < b.line_start)
        (mdLoop maxLines i rest st).chunks := by
  induction rest with
  | nil =>
    intro i st h1 h2 h3 h4
    simp only [mdLoop]
    exact ⟨h1, by simpa using h2, h3, h4⟩
  | cons line rest ih =>
    intro i st h1 h2 h3 h4
    rw [mdLoop]
    by_cases hh : (pyStartsWith line "#" && !st.cur.isEmpty) = true
    · rw [if_pos hh]
      have hcur : st.cur ≠ [] := by
        intro hnil
        rw [Bool.and_eq_true] at hh
        rw [hnil] at hh
        simp at hh
      have hlen : 1 ≤ st.cur.length := List.length_pos.mpr hcur
      have hi1 : 1 ≤ i := by omega
      obtain ⟨hnew, hchain⟩ :=
        mdEmit_inv st.title st.cur st.start (i - 1) i st.chunks
          h1 (by omega) (by omega) h3 h4
      have := ih (i + 1)
        ⟨if pyStrip (String.mk (line.toList.dropWhile (fun c => c = '#'))) = ""
           then st.title
           else pyStrip (String.mk (line.toList.dropWhile (fun c => c = '#'))),
         [line], i, mdEmit st.title st.cur st.start (i - 1) st.chunks⟩
        hi1 (by simp) hnew hchain
      refine ⟨this.1, ?_, this.2.2.1, this.2.2.2⟩
      have h2' := this.2.1
      simp only [List.length_cons]
      omega
    · rw [if_neg hh]
      by_cases hm : (maxLines ≤ (st.cur ++ [line]).length)
      · rw [if_pos hm]
        obtain ⟨hnew, hchain⟩ :=
          mdEmit_inv st.title (st.cur ++ [line]) st.start i (i + 1) st.chunks
            h1 (by omega) (by omega) h3 h4
        have := ih (i + 1)
          ⟨st.title, [], i + 1, mdEmit st.title (st.cur ++ [line]) st.start i st.chunks⟩
          (Nat.le_add_left 1 i) (by simp) hnew hchain
        refine ⟨this.1, ?_, this.2.2.1, this.2.2.2⟩
        have h2' := this.2.1
        simp only [List.length_cons]
        omega
      · rw [if_neg hm]
        have := ih (i + 1) ⟨st.title, st.cur ++ [line], st.start, st.chunks⟩
          h1 (by simp; omega) (fun c hc => h3 c hc) h4
        refine ⟨this.1, ?_, this.2.2.1, this.2.2.2⟩
        have h2' := this.2.1
        simp only [List.length_cons]
        omega

lemma chunk_markdown_inv (content filepath : String) (maxLines : Nat) :
    (∀ c ∈ chunk_markdown content filepath maxLines,
      (1 ≤ c.line_start ∧ c.line_start ≤ c.line_end ∧
       c.line_end ≤ (pySplitLines content).length) ∧ contentOk c) ∧
    List.Chain' (fun a b => a.line_end < b.line_start)
      (chunk_markdown content filepath maxLines) := by
  obtain ⟨g1, g2, g3, g4⟩ :=
    mdLoop_inv maxLines (pySplitLines content) 1 ⟨basename filepath, [], 1, []⟩
      (le_refl 1) (by simp) (by simp) List.chain'_nil
  simp only [chunk_markdown]
  by_cases he :
      (mdLoop maxLines 1 (pySplitLines content) ⟨basename filepath, [], 1, []⟩).cur.isEmpty
  · rw [if_pos he]
    have hlen0 :
        (mdLoop maxLines 1 (pySplitLines content) ⟨basename filepath, [], 1, []⟩).cur.length
          = 0 := by
      rw [List.isEmpty_iff] at he
      rw [he]
      rfl
    refine ⟨fun c hc => ⟨?_, (g3 c hc).2⟩, g4⟩
    have := (g3 c hc).1
    obtain ⟨a1, a2, a3⟩ := this
    exact ⟨a1, a2, by omega⟩
  · rw [if_neg he]
    have hlen1 : 1 ≤
        (mdLoop maxLines 1 (pySplitLines content) ⟨basename filepath, [], 1, []⟩).cur.length := by
      rcases Nat.eq_zero_or_pos
        (mdLoop maxLines 1 (pySplitLines content) ⟨basename filepath, [], 1, []⟩).cur.length
        with h0 | h0
      · rw [List.length_eq_zero] at h0
        rw [h0] at he
        simp at he
      · exact h0
    obtain ⟨hmem, hchain⟩ :=
      mdEmit_inv
        (mdLoop maxLines 1 (pySplitLines content) ⟨basename filepath, [], 1, []⟩).title
        (mdLoop maxLines 1 (pySplitLines content) ⟨basename filepath, [], 1, []⟩).cur
        (mdLoop maxLines 1 (pySplitLines content) ⟨basename filepath, [], 1, []⟩).start
        (pySplitLines content).length ((pySplitLines content).length + 1)
        (mdLoop maxLines 1 (pySplitLines content) ⟨basename filepath, [], 1, []⟩).chunks
        g1 (by omega) (by omega) g3 g4
    refine ⟨fun c hc => ⟨?_, (hmem c hc).2⟩, hchain⟩
    obtain ⟨a1, a2, a3⟩ := (hmem c hc).1
    exact ⟨a1, a2, by omega⟩

/-! ### Concrete documents used by witnesses and counterexamples -/

/-- The end-to-end scenario document: one heading line and five body
lines, nothing else. -/
def cDoc2 : String :=
  "## Cache Eviction\nThe cache evicts old entries first.\nEviction uses an LRU policy always.\nTTL is checked on read access.\nExpired entries are purged nightly.\nCapacity is bounded by config."

/-- A file path for the scenario document. -/
def cFp2 : String := "/home/u/.claude/memory/areas/tools/cache.md"

/-! ### Claim C10 -/

/-- C10: for every input text, the chunks returned by chunk_markdown
appear in document order with well-formed pairwise-disjoint line ranges:
1 le line_start le line_end le number of lines, and each later chunk
starts strictly after the previous chunk ends. -/
theorem c10_chunk_line_ranges (content filepath : String) (maxLines : Nat) :
    (∀ c ∈ chunk_markdown content filepath maxLines,
      1 ≤ c.line_start ∧ c.line_start ≤ c.line_end ∧
        c.line_end ≤ (pySplitLines content).length) ∧
    List.Chain' (fun a b => a.line_end < b.line_start)
      (chunk_markdown content filepath maxLines) :=
  ⟨fun c hc => ((chunk_markdown_inv content filepath maxLines).1 c hc).1,
   (chunk_markdown_inv content filepath maxLines).2⟩

/-- Witness for C10 at the concrete scenario document. -/
theorem c10_chunk_line_ranges_witness :
    (⟨"cache.md", cDoc2, 1, 6⟩ : Chunk) ∈ chunk_markdown cDoc2 cFp2 30 ∧
    (1 ≤ (1 : Nat) ∧ (1 : Nat) ≤ 6 ∧ (6 : Nat) ≤ (pySplitLines cDoc2).length) :=
  ⟨by decide, (c10_chunk_line_ranges cDoc2 cFp2 30).1 ⟨"cache.md", cDoc2, 1, 6⟩ (by decide)⟩

/-! ### Claim C7 (amended: the bound holds on the markdown path) -/

/-- C7 amended: every chunk produced by chunk_markdown has trimmed
content strictly longer than 20 characters; chunk_json performs no such
filtering (see the counterexample). -/
theorem c7_markdown_min_length_amended (content filepath : String) (maxLines : Nat) :
    ∀ c ∈ chunk_markdown content filepath maxLines,
      20 < (pyStrip c.content).length :=
  fun c hc => ((chunk_markdown_inv content filepath maxLines).1 c hc).2

/-- Witness for the amended C7 at the concrete scenario document. -/
theorem c7_markdown_min_length_witness :
    (⟨"cache.md", cDoc2, 1, 6⟩ : Chunk) ∈ chunk_markdown cDoc2 cFp2 30 ∧
    20 < (pyStrip cDoc2).length :=
  ⟨by decide,
   c7_markdown_min_length_amended cDoc2 cFp2 30 ⟨"cache.md", cDoc2, 1, 6⟩ (by decide)⟩

/-! ### Claim C2 -/

lemma mdLoop_nil (maxLines i : Nat) (st : MdState) : mdLoop maxLines i [] st = st := by
  simp only [mdLoop]

lemma mdLoop_cons_accum (maxLines i : Nat) (line : String) (rest : List String)
    (title : String) (cur : List String) (s : Nat) (cs : List Chunk)
    (hcond : (pyStartsWith line "#" && !cur.isEmpty) = false)
    (hmax : ¬ maxLines ≤ (cur ++ [line]).length) :
    mdLoop maxLines i (line :: rest) ⟨title, cur, s, cs⟩ =
      mdLoop maxLines (i + 1) rest ⟨title, cur ++ [line], s, cs⟩ := by
  simp only [mdLoop, hcond, Bool.false_eq_true, if_false, if_neg hmax]

/-- C2 amended: on a document that is exactly the heading line followed
by five non-heading body lines, chunk_markdown produces one chunk whose
line bounds cover all six lines, but whose title is the basename of the
file path: a heading on the first line sees an empty accumulation, so the
heading text never becomes the title. -/
theorem c2_heading_scenario_amended (content filepath b1 b2 b3 b4 b5 : String)
    (hsplit : pySplitLines content = ["## Cache Eviction", b1, b2, b3, b4, b5])
    (hb1 : pyStartsWith b1 "#" = false) (hb2 : pyStartsWith b2 "#" = false)
    (hb3 : pyStartsWith b3 "#" = false) (hb4 : pyStartsWith b4 "#" = false)
    (hb5 : pyStartsWith b5 "#" = false)
    (hlen : 20 < (pyStrip (String.intercalate "\n"
        ["## Cache Eviction", b1, b2, b3, b4, b5])).length) :
    chunk_markdown content filepath 30 =
      [⟨basename filepath,
        pyStrip (String.intercalate "\n" ["## Cache Eviction", b1, b2, b3, b4, b5]),
        1, 6⟩] := by
  simp only [chunk_markdown, hsplit]
  rw [mdLoop_cons_accum 30 1 "## Cache Eviction" [b1, b2, b3, b4, b5]
        (basename filepath) [] 1 [] (by decide) (by decide)]
  simp only [List.nil_append]
  rw [mdLoop_cons_accum 30 (1 + 1) b1 [b2, b3, b4, b5]
        (basename filepath) ["## Cache Eviction"] 1 []
        (by rw [hb1]; rfl) (by simp)]
  simp only [List.singleton_append, List.cons_append, List.nil_append]
  rw [mdLoop_cons_accum 30 (1 + 1 + 1) b2 [b3, b4, b5]
        (basename filepath) ["## Cache Eviction", b1] 1 []
        (by rw [hb2]; rfl) (by simp)]
  simp only [List.singleton_append, List.cons_append, List.nil_append]
  rw [mdLoop_cons_accum 30 (1 + 1 + 1 + 1) b3 [b4, b5]
        (basename filepath) ["## Cache Eviction", b1, b2] 1 []
        (by rw [hb3]; rfl) (by simp)]
  simp only [List.singleton_append, List.cons_append, List.nil_append]
  rw [mdLoop_cons_accum 30 (1 + 1 + 1 + 1 + 1) b4 [b5]
        (basename filepath) ["## Cache Eviction", b1, b2, b3] 1 []
        (by rw [hb4]; rfl) (by simp)]
  simp only [List.singleton_append, List.cons_append, List.nil_append]
  rw [mdLoop_cons_accum 30 (1 + 1 + 1 + 1 + 1 + 1) b5 []
        (basename filepath) ["## Cache Eviction", b1, b2, b3, b4] 1 []
        (by rw [hb5]; rfl) (by simp)]
  simp only [List.singleton_append, List.cons_append, List.nil_append]
  rw [mdLoop_nil]
  simp only [mdEmit, List.isEmpty_cons, Bool.false_eq_true, if_false, if_pos hlen]
  simp

/-- Witness for the amended C2 at the concrete scenario document. -/
theorem c2_heading_scenario_amended_witness :
    chunk_markdown cDoc2 cFp2 30 =
      [⟨basename cFp2,
        pyStrip (String.intercalate "\n"
          ["## Cache Eviction", "The cache evicts old entries first.",
           "Eviction uses an LRU policy always.", "TTL is checked on read access.",
           "Expired entries are purged nightly.", "Capacity is bounded by config."]),
        1, 6⟩] :=
  c2_heading_scenario_amended cDoc2 cFp2
    "The cache evicts old entries first." "Eviction uses an LRU policy always."
    "TTL is checked on read access." "Expired entries are purged nightly."
    "Capacity is bounded by config."
    (by decide) (by decide) (by decide) (by decide) (by decide) (by decide) (by decide)

/-- C2 counterexample: on the scenario document the single produced chunk
is titled with the file basename, not with the heading text, because a
heading on the very first line sees an empty accumulation and therefore
never assigns the title. -/
theorem c2_heading_title_counterexample :
    chunk_markdown cDoc2 cFp2 30 = [⟨"cache.md", cDoc2, 1, 6⟩] ∧
    ("cache.md" : String) ≠ "Cache Eviction" := by
  constructor
  · decide
  · decide

/-! ### Claim C5 -/

/-- C5: sanitize_fts_query splits on whitespace and maps each token by the
CJK/Latin casework of the specification; in particular the pure-CJK query
compiles to a single star term and the pure-Latin two-word query compiles
to two quoted phrase terms. -/
theorem c5_sanitize_query :
    (∀ q : String, sanitize_fts_query q = sanitizeSpec q) ∧
    sanitize_fts_query "积分" = "积分*" ∧
    sanitize_fts_query "cache TTL" = "\"cache\" \"TTL\"" := by
  refine ⟨fun q => ?_, by decide, by decide⟩
  unfold sanitize_fts_query sanitizeSpec
  rw [foldl_sanitizeStep (pySplitWs q) [] (pySplitWs_tokens q)]
  simp

/-! ### Structured documents: chunk_json (lines 301-334 of the source)

json.loads is the Python standard library; its output is modeled by the
Json inductive below and the parse itself enters as an Option Json
argument (none models a JSONDecodeError).  Numbers are restricted to
integers: no number in the repository corpus formats or in any claim
requires float literals.  A Python TypeError or AttributeError raised by
the script (subscripting a non-container, .get on a non-dict) is modeled
by Except.error. -/

inductive Json where
  | null
  | bool (b : Bool)
  | num (n : Int)
  | str (s : String)
  | arr (xs : List Json)
  | obj (kvs : List (String × Json))

/-- Python dict lookup with default None: first binding wins (json.loads
never produces duplicate keys). -/
def jLookup (kvs : List (String × Json)) (key : String) : Option Json :=
  match kvs.find? (fun kv => kv.1 = key) with
  | some kv => some kv.2
  | none => none

/-- Python truthiness of a json value. -/
def jTruthy : Json → Bool
  | .null => false
  | .bool b => b
  | .num n => n ≠ 0
  | .str s => s ≠ ""
  | .arr xs => !xs.isEmpty
  | .obj kvs => !kvs.isEmpty

/-- One hex digit. -/
def hexDigit (n : Nat) : Char :=
  if n < 10 then Char.ofNat (48 + n) else Char.ofNat (87 + n % 16)

/-- json.dumps escaping for one character inside a string literal. -/
def jsonEscapeChar (c : Char) : List Char :=
  if c = '"' then ['\\', '"']
  else if c = '\\' then ['\\', '\\']
  else if c = '\n' then ['\\', 'n']
  else if c = '\t' then ['\\', 't']
  else if c = '\r' then ['\\', 'r']
  else if c = '\x08' then ['\\', 'b']
  else if c = '\x0c' then ['\\', 'f']
  else if c.toNat < 0x20 then
    ['\\', 'u', '0', '0', hexDigit (c.toNat / 16), hexDigit (c.toNat % 16)]
  else [c]

mutual

/-- json.dumps with ensure_ascii False and default separators. -/
def jsonDumps : Json → String
  | .null => "null"
  | .bool b => if b then "true" else "false"
  | .num n => toString n
  | .str s => String.mk ('"' :: s.toList.flatMap jsonEscapeChar ++ ['"'])
  | .arr xs => "[" ++ String.intercalate ", " (jsonDumpsList xs) ++ "]"
  | .obj kvs => "\x7b" ++ String.intercalate ", " (jsonDumpsKVs kvs) ++ "\x7d"

def jsonDumpsList : List Json → List String
  | [] => []
  | x :: xs => jsonDumps x :: jsonDumpsList xs

def jsonDumpsKVs : List (String × Json) → List String
  | [] => []
  | kv :: kvs =>
    (String.mk ('"' :: kv.1.toList.flatMap jsonEscapeChar ++ ['"']) ++ ": " ++
      jsonDumps kv.2) :: jsonDumpsKVs kvs

end

mutual

/-- Python str() of a json value as it appears inside an f-string:
strings stay raw, scalars print Python style, containers print via repr. -/
def pyStr : Json → String
  | .null => "None"
  | .bool b => if b then "True" else "False"
  | .num n => toString n
  | .str s => s
  | .arr xs => "[" ++ String.intercalate ", " (pyReprList xs) ++ "]"
  | .obj kvs => "\x7b" ++ String.intercalate ", " (pyReprKVs kvs) ++ "\x7d"

/-- Python repr of a json value.  Quote escaping inside repr of strings is
elided: no claim inspects repr output of strings containing quotes. -/
def pyRepr : Json → String
  | .null => "None"
  | .bool b => if b then "True" else "False"
  | .num n => toString n
  | .str s => String.mk ('\'' :: s.toList ++ ['\''])
  | .arr xs => "[" ++ String.intercalate ", " (pyReprList xs) ++ "]"
  | .obj kvs => "\x7b" ++ String.intercalate ", " (pyReprKVs kvs) ++ "\x7d"

def pyReprList : List Json → List String
  | [] => []
  | x :: xs => pyRepr x :: pyReprList xs

def pyReprKVs : List (String × Json) → List String
  | [] => []
  | kv :: kvs =>
    (String.mk ('\'' :: kv.1.toList ++ ['\'']) ++ ": " ++ pyRepr kv.2) :: pyReprKVs kvs

end

/-- Python "key in data": key membership for a dict, element equality for
a list, substring for a str; TypeError for other values. -/
def pyIn (s : String) : Json → Except Unit Bool
  | .obj kvs => .ok (kvs.any (fun kv => kv.1 = s))
  | .arr xs => .ok (xs.any (fun x => match x with | .str t => t = s | _ => false))
  | .str t => .ok (strContainsStr t s)
  | _ => .error ()

/-- Body of the facts loop: a non-dict fact raises AttributeError on
fact.get; an inactive fact is skipped; an active fact renders category and
text, appends evidence when truthy, and titles the chunk with its id or
the file basename. -/
def factChunk (filepath : String) (fact : Json) : Except Unit (Option Chunk) :=
  match fact with
  | .obj kvs =>
    match jLookup kvs "status" with
    | some (.str st) =>
      if st = "active" then
        let factText := (jLookup kvs "fact").getD (.str "")
        let cat := (jLookup kvs "category").getD (.str "")
        let base := "[" ++ pyStr cat ++ "] " ++ pyStr factText
        let text :=
          match jLookup kvs "evidence" with
          | some ev => if jTruthy ev then base ++ " (evidence: " ++ pyStr ev ++ ")" else base
          | none => base
        let title :=
          match jLookup kvs "id" with
          | some j => pyStr j
          | none => basename filepath
        .ok (some ⟨title, text, 1, 1⟩)
      else .ok none
    | _ => .ok none
  | _ => .error ()

def factChunks (filepath : String) : List Json → Except Unit (List Chunk)
  | [] => .ok []
  | f :: fs => do
    let c ← factChunk filepath f
    let rest ← factChunks filepath fs
    match c with
    | some ch => .ok (ch :: rest)
    | none => .ok rest

/-- The plain-dict branch: one chunk per key with the serialized value
truncated to 500 characters. -/
def dictChunks (kvs : List (String × Json)) : List Chunk :=
  kvs.map (fun kv => ⟨kv.1, kv.1 ++ ": " ++ pyTake (jsonDumps kv.2) 500, 1, 1⟩)

/-- chunk_json from the source.  A failed parse falls back to one chunk of
the raw text truncated to 2000 characters; a facts collection yields one
chunk per active fact; any other dict yields one chunk per key; any other
json value yields no chunks.  Subscripting data with a string when data is
a list or str raises, modeled as an error. -/
def chunk_json (parsed : Option Json) (content filepath : String) :
    Except Unit (List Chunk) :=
  match parsed with
  | none => .ok [⟨basename filepath, pyTake content 2000, 1, 1⟩]
  | some data => do
    let hasFacts ← pyIn "facts" data
    if hasFacts then
      match data with
      | .obj kvs =>
        match jLookup kvs "facts" with
        | some (.arr facts) => factChunks filepath facts
        | _ => .ok (dictChunks kvs)
      | _ => .error ()
    else
      match data with
      | .obj kvs => .ok (dictChunks kvs)
      | _ => .ok []

/-- C7 counterexample: chunk_json applies no minimum-length filter: a
well-formed facts document with a one-character fact yields a chunk whose
trimmed content has length 6, at most 20, yet it is emitted. -/
theorem c7_minlength_counterexample :
    chunk_json (some (.obj [("facts", .arr [.obj [("id", .str "f1"),
        ("fact", .str "x"), ("category", .str "db"), ("status", .str "active")]])]))
      "" "/m/areas/projects/p/facts.json" = .ok [⟨"f1", "[db] x", 1, 1⟩] ∧
    (pyStrip "[db] x").length ≤ 20 :=
  ⟨rfl, by decide⟩

/-! ### Fusion engine: _jaccard_similarity and rrf_fuse
(lines 686-759 of the source) -/

/-- One search result row.  Python result dicts acquire the rrf fields
only inside rrf_fuse; the model carries them from the start with the
neutral values rrf_fuse assigns on first touch. -/
structure SearchResult where
  rowid : Nat
  path : String
  category : String
  title : String
  snippet : String
  content : String
  score : ℚ
  sources : List String
  rrf_score : ℚ
  bm25_rank : Option Nat
  vec_rank : Option Nat
deriving DecidableEq, Repr

/-- Character trigrams of a string, as a duplicate-free list standing for
the Python set. -/
def trigrams (s : String) : List (List Char) :=
  (((List.range (s.toList.length - 3 + 1)).map
      (fun i => (s.toList.drop i).take 3))).dedup

/-- Trigram Jaccard similarity from the source: texts shorter than three
characters degrade to exact equality; otherwise intersection over union
of the trigram sets. -/
def _jaccard_similarity (text_a text_b : String) : ℚ :=
  if text_a.length < 3 || text_b.length < 3 then
    if text_a = text_b then 1 else 0
  else
    let sa := trigrams text_a
    let sb := trigrams text_b
    let inter := (sa.filter (fun t => decide (t ∈ sb))).length
    let uni := (sa ++ sb.filter (fun t => decide (t ∉ sa))).length
    if 0 < uni then (inter : ℚ) / uni else 0

/-- The Jaccard dedup threshold 0.83 of the source. -/
def JACCARD_THRESHOLD : ℚ := 83 / 100

/-- Reset applied to a result on first insertion into the fused map. -/
def rrfInit (r : SearchResult) : SearchResult :=
  { r with rrf_score := 0, sources := [], bm25_rank := none, vec_rank := none }

/-- Ordered-dict update: apply f in place at the key, or append the
freshly initialized entry first, like a Python dict keyed by rowid. -/
def alUpd (m : List (Nat × SearchResult)) (rid : Nat) (dflt : SearchResult)
    (f : SearchResult → SearchResult) : List (Nat × SearchResult) :=
  match m with
  | [] => [(rid, f dflt)]
  | (k, v) :: rest =>
    if k = rid then (k, f v) :: rest else (k, v) :: alUpd rest rid dflt f

/-- First loop of rrf_fuse over the bm25 list, rank counted from 1. -/
def rrfLoop1 (k : ℚ) : Nat → List SearchResult → List (Nat × SearchResult) →
    List (Nat × SearchResult)
  | _, [], m => m
  | rank, r :: rs, m =>
    rrfLoop1 k (rank + 1) rs
      (alUpd m r.rowid (rrfInit r) (fun e =>
        { e with rrf_score := e.rrf_score + 1 / (k + rank),
                 sources := e.sources ++ ["bm25"],
                 bm25_rank := some rank }))

/-- Snippet preference of the second loop: keep a highlighted bm25
snippet, otherwise fall back to the vector snippet when the current one
has no highlight marker. -/
def rrfSnipMerge (r e1 : SearchResult) : SearchResult :=
  if e1.sources.contains "bm25" && strContainsStr e1.snippet ">>>" then e1
  else if !strContainsStr e1.snippet ">>>" then { e1 with snippet := r.snippet }
  else e1

/-- Update applied by the second loop: add the vector contribution, then
keep the bm25 snippet when it is highlighted, otherwise fall back to the
vector snippet when the current one has no highlight. -/
def rrfVecUpd (k : ℚ) (rank : Nat) (r : SearchResult) (e : SearchResult) :
    SearchResult :=
  rrfSnipMerge r
    { e with rrf_score := e.rrf_score + 1 / (k + rank),
             sources := e.sources ++ ["vector"],
             vec_rank := some rank }

/-- Second loop of rrf_fuse over the vector list. -/
def rrfLoop2 (k : ℚ) : Nat → List SearchResult → List (Nat × SearchResult) →
    List (Nat × SearchResult)
  | _, [], m => m
  | rank, r :: rs, m =>
    rrfLoop2 k (rank + 1) rs (alUpd m r.rowid (rrfInit r) (rrfVecUpd k rank r))

/-- Stable insertion placing x before the first strictly smaller score,
so that sorting is by rrf_score descending with ties in original order,
like Python sorted with reverse True. -/
def insDesc (x : SearchResult) : List SearchResult → List SearchResult
  | [] => [x]
  | y :: ys => if y.rrf_score < x.rrf_score then x :: y :: ys else y :: insDesc x ys

def sortDescRrf (l : List SearchResult) : List SearchResult :=
  l.foldl (fun acc x => insDesc x acc) []

/-- The fused map of rrf_fuse, then its values sorted by score. -/
def rrfRanked (bm25_results vector_results : List SearchResult) (k : ℚ) :
    List SearchResult :=
  sortDescRrf ((rrfLoop2 k 1 vector_results (rrfLoop1 k 1 bm25_results [])).map Prod.snd)

/-- The dedup loop of rrf_fuse: accept a candidate unless it is
near-duplicate of an accepted one, then stop as soon as the accepted
count reaches max_results; the length test runs after every iteration,
accepted or not, exactly as in the source. -/
def dedupLoop (max_results : Nat) : List SearchResult → List SearchResult →
    List SearchResult
  | [], acc => acc
  | item :: rest, acc =>
    if acc.any (fun ex => JACCARD_THRESHOLD < _jaccard_similarity item.content ex.content)
    then (if max_results ≤ acc.length then acc else dedupLoop max_results rest acc)
    else
      if max_results ≤ (acc ++ [item]).length then acc ++ [item]
      else dedupLoop max_results rest (acc ++ [item])

/-- rrf_fuse from the source. -/
def rrf_fuse (bm25_results vector_results : List SearchResult) (k : ℚ)
    (max_results : Nat) : List SearchResult :=
  dedupLoop max_results (rrfRanked bm25_results vector_results k) []

/-! ### Score bookkeeping of the fused map -/

/-- rrf_score recorded in the fused map for a rowid, zero when absent. -/
def scOf (m : List (Nat × SearchResult)) (rid : Nat) : ℚ :=
  ((m.find? (fun p => p.1 = rid)).map (fun p => p.2.rrf_score)).getD 0

/-- 0-based position of the first occurrence. -/
def posOf (x : Nat) : List Nat → Option Nat
  | [] => none
  | y :: ys => if y = x then some 0 else (posOf x ys).map (· + 1)

/-- The RRF contribution of one ranked list to a rowid: the reciprocal of
k plus the 1-based rank when present, zero when absent. -/
def rrfContrib (k : ℚ) (l : List SearchResult) (rid : Nat) : ℚ :=
  match posOf rid (l.map SearchResult.rowid) with
  | some j => 1 / (k + ((1 + j : Nat) : ℚ))
  | none => 0

lemma posOf_eq_none_of_not_mem (x : Nat) :
    ∀ l : List Nat, x ∉ l → posOf x l = none := by
  intro l
  induction l with
  | nil => intro _; rfl
  | cons y ys ih =>
    intro h
    have hyx : ¬ y = x := fun hyx => h (by rw [← hyx]; exact List.mem_cons_self y ys)
    rw [posOf, if_neg hyx, ih (fun hm => h (List.mem_cons_of_mem y hm))]
    rfl

lemma scOf_alUpd_self (m : List (Nat × SearchResult)) (rid : Nat)
    (dflt : SearchResult) (f : SearchResult → SearchResult) (q : ℚ)
    (hf : ∀ e, (f e).rrf_score = e.rrf_score + q) (hd : dflt.rrf_score = 0) :
    scOf (alUpd m rid dflt f) rid = scOf m rid + q := by
  induction m with
  | nil =>
    simp only [alUpd, scOf, List.find?_nil]
    rw [List.find?_cons_of_pos _ (by simp)]
    simp [hf, hd]
  | cons p rest ih =>
    obtain ⟨pk, pv⟩ := p
    by_cases hk : pk = rid
    · simp only [alUpd, if_pos hk, scOf]
      rw [List.find?_cons_of_pos _ (by simpa using hk),
          List.find?_cons_of_pos _ (by simpa using hk)]
      simp [hf]
    · simp only [alUpd, if_neg hk, scOf]
      rw [List.find?_cons_of_neg _ (by simpa using hk),
          List.find?_cons_of_neg _ (by simpa using hk)]
      exact ih

lemma scOf_alUpd_other (m : List (Nat × SearchResult)) (rid rid' : Nat)
    (dflt : SearchResult) (f : SearchResult → SearchResult) (hne : rid' ≠ rid) :
    scOf (alUpd m rid dflt f) rid' = scOf m rid' := by
  induction m with
  | nil =>
    simp only [alUpd, scOf, List.find?_nil]
    rw [List.find?_cons_of_neg _ (by simpa using fun h => hne h.symm)]
    rfl
  | cons p rest ih =>
    obtain ⟨pk, pv⟩ := p
    by_cases hk : pk = rid
    · have hk' : ¬ pk = rid' := fun h => hne (h ▸ hk)
      simp only [alUpd, if_pos hk, scOf]
      rw [List.find?_cons_of_neg _ (by simpa using hk'),
          List.find?_cons_of_neg _ (by simpa using hk')]
    · simp only [alUpd, if_neg hk, scOf]
      by_cases hk' : pk = rid'
      · rw [List.find?_cons_of_pos _ (by simpa using hk'),
            List.find?_cons_of_pos _ (by simpa using hk')]
      · rw [List.find?_cons_of_neg _ (by simpa using hk'),
            List.find?_cons_of_neg _ (by simpa using hk')]
        exact ih

lemma rrfSnipMerge_score (r e1 : SearchResult) :
    (rrfSnipMerge r e1).rrf_score = e1.rrf_score := by
  unfold rrfSnipMerge
  split_ifs <;> rfl

lemma rrfVecUpd_score (k : ℚ) (rank : Nat) (r e : SearchResult) :
    (rrfVecUpd k rank r e).rrf_score = e.rrf_score + 1 / (k + rank) := by
  unfold rrfVecUpd
  rw [rrfSnipMerge_score]

lemma scOf_rrfLoop1 (k : ℚ) :
    ∀ (rs : List SearchResult) (rank : Nat) (m : List (Nat × SearchResult)) (rid : Nat),
      (rs.map SearchResult.rowid).Nodup →
      scOf (rrfLoop1 k rank rs m) rid =
        scOf m rid +
          (match posOf rid (rs.map SearchResult.rowid) with
           | some j => 1 / (k + ((rank + j : Nat) : ℚ))
           | none => 0) := by
  intro rs
  induction rs with
  | nil => intro rank m rid _; simp [rrfLoop1, posOf]
  | cons r rs ih =>
    intro rank m rid hnd
    rw [List.map_cons, List.nodup_cons] at hnd
    rw [rrfLoop1]
    by_cases hrid : r.rowid = rid
    · subst hrid
      rw [ih (rank + 1) _ r.rowid hnd.2,
          scOf_alUpd_self _ _ _ _ (1 / (k + rank)) (fun e => rfl) rfl]
      have hnone : posOf r.rowid (rs.map SearchResult.rowid) = none :=
        posOf_eq_none_of_not_mem _ _ hnd.1
      have hpos : posOf r.rowid (r.rowid :: rs.map SearchResult.rowid) = some 0 := by
        rw [posOf, if_pos rfl]
      simp only [List.map_cons, hpos, hnone]
      push_cast
      ring
    · rw [ih (rank + 1) _ rid hnd.2,
          scOf_alUpd_other _ _ _ _ _ (fun h => hrid h.symm)]
      have hcons : posOf rid (r.rowid :: rs.map SearchResult.rowid) =
          (posOf rid (rs.map SearchResult.rowid)).map (· + 1) := by
        rw [posOf, if_neg hrid]
      rw [List.map_cons, hcons]
      rcases hp : posOf rid (rs.map SearchResult.rowid) with _ | j
      · simp
      · have hmap : Option.map (fun x => x + 1) (some j) = some (j + 1) := rfl
        rw [hmap]
        show scOf m rid + 1 / (k + ((rank + 1 + j : Nat) : ℚ)) =
          scOf m rid + 1 / (k + ((rank + (j + 1) : Nat) : ℚ))
        push_cast
        ring

lemma scOf_rrfLoop2 (k : ℚ) :
    ∀ (rs : List SearchResult) (rank : Nat) (m : List (Nat × SearchResult)) (rid : Nat),
      (rs.map SearchResult.rowid).Nodup →
      scOf (rrfLoop2 k rank rs m) rid =
        scOf m rid +
          (match posOf rid (rs.map SearchResult.rowid) with
           | some j => 1 / (k + ((rank + j : Nat) : ℚ))
           | none => 0) := by
  intro rs
  induction rs with
  | nil => intro rank m rid _; simp [rrfLoop2, posOf]
  | cons r rs ih =>
    intro rank m rid hnd
    rw [List.map_cons, List.nodup_cons] at hnd
    rw [rrfLoop2]
    by_cases hrid : r.rowid = rid
    · subst hrid
      rw [ih (rank + 1) _ r.rowid hnd.2,
          scOf_alUpd_self _ _ _ _ (1 / (k + rank)) (rrfVecUpd_score k rank r) rfl]
      have hnone : posOf r.rowid (rs.map SearchResult.rowid) = none :=
        posOf_eq_none_of_not_mem _ _ hnd.1
      have hpos : posOf r.rowid (r.rowid :: rs.map SearchResult.rowid) = some 0 := by
        rw [posOf, if_pos rfl]
      simp only [List.map_cons, hpos, hnone]
      push_cast
      ring
    · rw [ih (rank + 1) _ rid hnd.2,
          scOf_alUpd_other _ _ _ _ _ (fun h => hrid h.symm)]
      have hcons : posOf rid (r.rowid :: rs.map SearchResult.rowid) =
          (posOf rid (rs.map SearchResult.rowid)).map (· + 1) := by
        rw [posOf, if_neg hrid]
      rw [List.map_cons, hcons]
      rcases hp : posOf rid (rs.map SearchResult.rowid) with _ | j
      · simp
      · have hmap : Option.map (fun x => x + 1) (some j) = some (j + 1) := rfl
        rw [hmap]
        show scOf m rid + 1 / (k + ((rank + 1 + j : Nat) : ℚ)) =
          scOf m rid + 1 / (k + ((rank + (j + 1) : Nat) : ℚ))
        push_cast
        ring

/-- The fused map keeps pairwise distinct keys and each stored result
carries its key as rowid. -/
def keysOk (m : List (Nat × SearchResult)) : Prop :=
  (m.map Prod.fst).Nodup ∧ ∀ p ∈ m, p.2.rowid = p.1

lemma mem_keys_alUpd (rid : Nat) (dflt : SearchResult)
    (f : SearchResult → SearchResult) :
    ∀ (m : List (Nat × SearchResult)) (x : Nat),
      x ∈ (alUpd m rid dflt f).map Prod.fst → x = rid ∨ x ∈ m.map Prod.fst := by
  intro m
  induction m with
  | nil =>
    intro x hx
    simp [alUpd] at hx
    exact Or.inl hx
  | cons p rest ih =>
    intro x hx
    obtain ⟨pk, pv⟩ := p
    by_cases hk : pk = rid
    · simp only [alUpd, if_pos hk, List.map_cons] at hx
      rcases List.mem_cons.mp hx with h | h
      · exact Or.inr (by simp [h])
      · exact Or.inr (List.mem_cons_of_mem _ h)
    · simp only [alUpd, if_neg hk, List.map_cons] at hx
      rcases List.mem_cons.mp hx with h | h
      · exact Or.inr (by simp [h])
      · rcases ih x h with h' | h'
        · exact Or.inl h'
        · exact Or.inr (List.mem_cons_of_mem _ h')

lemma keysOk_alUpd (rid : Nat) (dflt : SearchResult)
    (f : SearchResult → SearchResult) (hd : dflt.rowid = rid)
    (hf : ∀ e, (f e).rowid = e.rowid) :
    ∀ m : List (Nat × SearchResult), keysOk m → keysOk (alUpd m rid dflt f) := by
  intro m
  induction m with
  | nil =>
    intro _
    refine ⟨by simp [alUpd], ?_⟩
    intro p hp
    simp only [alUpd, List.mem_singleton] at hp
    subst hp
    rw [hf dflt, hd]
  | cons q rest ih =>
    intro h
    obtain ⟨pk, pv⟩ := q
    obtain ⟨hnd, hall⟩ := h
    rw [List.map_cons, List.nodup_cons] at hnd
    by_cases hk : pk = rid
    · refine ⟨?_, ?_⟩
      · simp only [alUpd, if_pos hk, List.map_cons, List.nodup_cons]
        exact hnd
      · intro p hp
        simp only [alUpd, if_pos hk] at hp
        rcases List.mem_cons.mp hp with h' | h'
        · subst h'
          rw [hf pv]
          exact hall (pk, pv) (List.mem_cons_self _ _)
        · exact hall p (List.mem_cons_of_mem _ h')
    · have hrest : keysOk rest :=
        ⟨hnd.2, fun p hp => hall p (List.mem_cons_of_mem _ hp)⟩
      obtain ⟨ihnd, ihall⟩ := ih hrest
      refine ⟨?_, ?_⟩
      · simp only [alUpd, if_neg hk, List.map_cons, List.nodup_cons]
        refine ⟨?_, ihnd⟩
        intro hpk
        rcases mem_keys_alUpd rid dflt f rest pk hpk with h' | h'
        · exact hk h'
        · exact hnd.1 h'
      · intro p hp
        simp only [alUpd, if_neg hk] at hp
        rcases List.mem_cons.mp hp with h' | h'
        · subst h'
          exact hall (pk, pv) (List.mem_cons_self _ _)
        · exact ihall p h'

lemma rrfSnipMerge_rowid (r e1 : SearchResult) :
    (rrfSnipMerge r e1).rowid = e1.rowid := by
  unfold rrfSnipMerge
  split_ifs <;> rfl

lemma keysOk_rrfLoop1 (k : ℚ) :
    ∀ (rs : List SearchResult) (rank : Nat) (m : List (Nat × SearchResult)),
      keysOk m → keysOk (rrfLoop1 k rank rs m) := by
  intro rs
  induction rs with
  | nil => intro rank m h; simpa [rrfLoop1] using h
  | cons r rs ih =>
    intro rank m h
    rw [rrfLoop1]
    refine ih (rank + 1) _ ?_
    exact keysOk_alUpd r.rowid (rrfInit r)
      (fun e => { e with rrf_score := e.rrf_score + 1 / (k + ↑rank),
                         sources := e.sources ++ ["bm25"],
                         bm25_rank := some rank })
      rfl (fun e => rfl) m h

lemma keysOk_rrfLoop2 (k : ℚ) :
    ∀ (rs : List SearchResult) (rank : Nat) (m : List (Nat × SearchResult)),
      keysOk m → keysOk (rrfLoop2 k rank rs m) := by
  intro rs
  induction rs with
  | nil => intro rank m h; simpa [rrfLoop2] using h
  | cons r rs ih =>
    intro rank m h
    rw [rrfLoop2]
    refine ih (rank + 1) _ ?_
    refine keysOk_alUpd r.rowid (rrfInit r) (rrfVecUpd k rank r) rfl ?_ m h
    intro e
    unfold rrfVecUpd
    rw [rrfSnipMerge_rowid]

lemma scOf_mem_values :
    ∀ m : List (Nat × SearchResult), keysOk m →
      ∀ it ∈ m.map Prod.snd, scOf m it.rowid = it.rrf_score := by
  intro m
  induction m with
  | nil => intro _ it hit; simp at hit
  | cons q rest ih =>
    intro h it hit
    obtain ⟨pk, pv⟩ := q
    obtain ⟨hnd, hall⟩ := h
    rw [List.map_cons, List.nodup_cons] at hnd
    rcases List.mem_cons.mp hit with h' | h'
    · subst h'
      have hpk : it.rowid = pk := hall (pk, it) (List.mem_cons_self _ _)
      unfold scOf
      rw [List.find?_cons_of_pos _ (by simpa using hpk.symm)]
      rfl
    · obtain ⟨q', hq', hq'e⟩ := List.mem_map.mp h'
      have hq'k : it.rowid = q'.1 := by
        rw [← hq'e]
        exact hall q' (List.mem_cons_of_mem _ hq')
      have hne : ¬ pk = it.rowid := by
        intro hpk
        apply hnd.1
        rw [hpk, hq'k]
        exact List.mem_map.mpr ⟨q', hq', rfl⟩
      unfold scOf
      rw [List.find?_cons_of_neg _ (by simpa using hne)]
      exact ih ⟨hnd.2, fun p hp => hall p (List.mem_cons_of_mem _ hp)⟩ it h'

lemma mem_insDesc (x a : SearchResult) :
    ∀ l : List SearchResult, a ∈ insDesc x l ↔ a = x ∨ a ∈ l := by
  intro l
  induction l with
  | nil => simp [insDesc]
  | cons y ys ih =>
    by_cases h : y.rrf_score < x.rrf_score
    · rw [insDesc, if_pos h]
      simp
    · rw [insDesc, if_neg h]
      rw [List.mem_cons, List.mem_cons, ih]
      tauto

lemma mem_sortFold (a : SearchResult) :
    ∀ (l acc : List SearchResult),
      a ∈ l.foldl (fun acc x => insDesc x acc) acc ↔ a ∈ acc ∨ a ∈ l := by
  intro l
  induction l with
  | nil => intro acc; simp
  | cons x xs ih =>
    intro acc
    rw [List.foldl_cons, ih, mem_insDesc]
    rw [List.mem_cons]
    tauto

lemma mem_sortDescRrf (a : SearchResult) (l : List SearchResult) :
    a ∈ sortDescRrf l ↔ a ∈ l := by
  unfold sortDescRrf
  rw [mem_sortFold]
  simp

lemma pairwise_insDesc (x : SearchResult) :
    ∀ l : List SearchResult,
      List.Pairwise (fun a c => c.rrf_score ≤ a.rrf_score) l →
      List.Pairwise (fun a c => c.rrf_score ≤ a.rrf_score) (insDesc x l) := by
  intro l
  induction l with
  | nil => intro _; simp [insDesc]
  | cons y ys ih =>
    intro h
    rw [List.pairwise_cons] at h
    by_cases hxy : y.rrf_score < x.rrf_score
    · rw [insDesc, if_pos hxy]
      rw [List.pairwise_cons]
      refine ⟨?_, List.pairwise_cons.mpr h⟩
      intro z hz
      rcases List.mem_cons.mp hz with h' | h'
      · subst h'; exact le_of_lt hxy
      · exact (h.1 z h').trans (le_of_lt hxy)
    · rw [insDesc, if_neg hxy]
      rw [List.pairwise_cons]
      refine ⟨?_, ih h.2⟩
      intro z hz
      rcases (mem_insDesc x z ys).mp hz with h' | h'
      · subst h'; exact le_of_not_lt hxy
      · exact h.1 z h'

lemma pairwise_sortFold :
    ∀ (l acc : List SearchResult),
      List.Pairwise (fun a c => c.rrf_score ≤ a.rrf_score) acc →
      List.Pairwise (fun a c => c.rrf_score ≤ a.rrf_score)
        (l.foldl (fun acc x => insDesc x acc) acc) := by
  intro l
  induction l with
  | nil => intro acc h; exact h
  | cons x xs ih =>
    intro acc h
    rw [List.foldl_cons]
    exact ih _ (pairwise_insDesc x acc h)

lemma pairwise_sortDescRrf (l : List SearchResult) :
    List.Pairwise (fun a c => c.rrf_score ≤ a.rrf_score) (sortDescRrf l) :=
  pairwise_sortFold l [] List.Pairwise.nil

/-! ### Claim C1 -/

/-- A minimal concrete result row for the RRF scenario; contents are
single distinct characters, so dedup similarity is zero pairwise. -/
def mkResult (rid : Nat) (content : String) : SearchResult :=
  ⟨rid, "areas/tools/a.md", "tool", content, content, content, 0, [], 0, none, none⟩

def rA : SearchResult := mkResult 1 "A"

def rB : SearchResult := mkResult 2 "B"

def rC : SearchResult := mkResult 3 "C"

def rD : SearchResult := mkResult 4 "D"

/-- C1: RRF fusion sums a reciprocal contribution per list at the 1-based
rank under k plus rank, the fused list is sorted by total score
descending, and on the concrete scenario with lexical ranks A B C and
vector ranks B A D the scores are exactly 1/61 + 1/62 for A and B (exact
tie, broken by first-insertion order, A first), 1/63 for C and for D. -/
theorem c1_rrf_fusion :
    (∀ (b v : List SearchResult),
        (b.map SearchResult.rowid).Nodup → (v.map SearchResult.rowid).Nodup →
        (∀ it ∈ rrfRanked b v 60,
          it.rrf_score = rrfContrib 60 b it.rowid + rrfContrib 60 v it.rowid) ∧
        List.Pairwise (fun a c => c.rrf_score ≤ a.rrf_score) (rrfRanked b v 60)) ∧
    (rrf_fuse [rA, rB, rC] [rB, rA, rD] 60 6).map SearchResult.rowid = [1, 2, 3, 4] ∧
    (rrf_fuse [rA, rB, rC] [rB, rA, rD] 60 6).map SearchResult.rrf_score =
      [1 / 61 + 1 / 62, 1 / 62 + 1 / 61, 1 / 63, 1 / 63] ∧
    (1 / 61 + 1 / 62 : ℚ) = 1 / 62 + 1 / 61 := by
  refine ⟨?_, by decide, by decide, by norm_num⟩
  intro b v hb hv
  constructor
  · intro it hit
    unfold rrfRanked at hit
    rw [mem_sortDescRrf] at hit
    have hkeys : keysOk (rrfLoop2 60 1 v (rrfLoop1 60 1 b [])) :=
      keysOk_rrfLoop2 60 v 1 _ (keysOk_rrfLoop1 60 b 1 [] ⟨List.nodup_nil, by simp⟩)
    have hsc := scOf_mem_values _ hkeys it hit
    rw [← hsc, scOf_rrfLoop2 60 v 1 _ it.rowid hv, scOf_rrfLoop1 60 b 1 [] it.rowid hb]
    show 0 + _ + _ = _
    rw [zero_add]
    rfl
  · exact pairwise_sortDescRrf _

/-- Witness for the general part of C1 at the concrete scenario lists. -/
theorem c1_rrf_fusion_witness :
    (rrfRanked [rA, rB, rC] [rB, rA, rD] 60).map (fun it => it.rrf_score) =
      (rrfRanked [rA, rB, rC] [rB, rA, rD] 60).map
        (fun it => rrfContrib 60 [rA, rB, rC] it.rowid +
          rrfContrib 60 [rB, rA, rD] it.rowid) :=
  List.map_congr_left (fun it hit =>
    (c1_rrf_fusion.1 [rA, rB, rC] [rB, rA, rD] (by decide) (by decide)).1 it hit)

/-! ### Claim C6 -/

/-- The dedup scan as the specification words it, with no stop condition:
a candidate is discarded exactly when its trigram Jaccard similarity with
some already-accepted content exceeds the threshold. -/
def greedySpec : List SearchResult → List SearchResult → List SearchResult
  | [], acc => acc
  | item :: rest, acc =>
    if acc.any (fun ex => JACCARD_THRESHOLD < _jaccard_similarity item.content ex.content)
    then greedySpec rest acc
    else greedySpec rest (acc ++ [item])

lemma greedySpec_prefix :
    ∀ (items acc : List SearchResult), ∃ t, greedySpec items acc = acc ++ t := by
  intro items
  induction items with
  | nil => intro acc; exact ⟨[], by simp [greedySpec]⟩
  | cons item rest ih =>
    intro acc
    by_cases h : (acc.any (fun ex =>
        JACCARD_THRESHOLD < _jaccard_similarity item.content ex.content)) = true
    · rw [greedySpec, if_pos h]
      exact ih acc
    · rw [greedySpec, if_neg h]
      obtain ⟨t, ht⟩ := ih (acc ++ [item])
      exact ⟨[item] ++ t, by rw [ht, List.append_assoc]⟩

lemma dedupLoop_eq_take (limit : Nat) :
    ∀ (items acc : List SearchResult), acc.length < limit →
      dedupLoop limit items acc = (greedySpec items acc).take limit := by
  intro items
  induction items with
  | nil =>
    intro acc hacc
    rw [dedupLoop, greedySpec, List.take_of_length_le (le_of_lt hacc)]
  | cons item rest ih =>
    intro acc hacc
    rw [dedupLoop, greedySpec]
    by_cases hdup : (acc.any (fun ex =>
        JACCARD_THRESHOLD < _jaccard_similarity item.content ex.content)) = true
    · rw [if_pos hdup, if_pos hdup, if_neg (not_le.mpr hacc)]
      exact ih acc hacc
    · rw [if_neg hdup, if_neg hdup]
      by_cases hfull : limit ≤ (acc ++ [item]).length
      · rw [if_pos hfull]
        have hlen : (acc ++ [item]).length = limit := by
          have h1 : (acc ++ [item]).length = acc.length + 1 := by simp
          rw [h1] at hfull ⊢
          omega
        obtain ⟨t, ht⟩ := greedySpec_prefix rest (acc ++ [item])
        rw [ht, ← hlen, List.take_left]
      · rw [if_neg hfull]
        refine ih (acc ++ [item]) ?_
        exact not_le.mp hfull

/-- C6 amended: the dedup scan accepts a candidate exactly when no
already-accepted result is trigram-similar above 0.83, texts shorter than
three characters compare by exact equality, and for any positive
requested limit the output is the limit-truncation of the unbounded
greedy scan, hence never longer than the limit.  (The positivity
condition is forced by the counterexample at limit zero.) -/
theorem c6_dedup_amended :
    (∀ a b : String, a.length < 3 ∨ b.length < 3 →
        _jaccard_similarity a b = if a = b then 1 else 0) ∧
    (∀ (bres vres : List SearchResult) (k : ℚ) (limit : Nat), 1 ≤ limit →
        rrf_fuse bres vres k limit =
          (greedySpec (rrfRanked bres vres k) []).take limit ∧
        (rrf_fuse bres vres k limit).length ≤ limit) := by
  constructor
  · intro a b h
    unfold _jaccard_similarity
    rw [if_pos (by rcases h with h | h <;> simp [h])]
  · intro bres vres k limit hl
    have heq := dedupLoop_eq_take limit (rrfRanked bres vres k) [] (by simpa using hl)
    refine ⟨heq, ?_⟩
    unfold rrf_fuse
    rw [heq]
    simp only [List.length_take]
    omega

/-- Witness for the amended C6 at concrete inputs. -/
theorem c6_dedup_amended_witness :
    (_jaccard_similarity "ab" "ab" = if ("ab" : String) = "ab" then 1 else 0) ∧
    rrf_fuse [rA] [] 60 6 = (greedySpec (rrfRanked [rA] [] 60) []).take 6 ∧
    (rrf_fuse [rA] [] 60 6).length ≤ 6 :=
  ⟨c6_dedup_amended.1 "ab" "ab" (Or.inl (by decide)),
   (c6_dedup_amended.2 [rA] [] 60 6 (by decide)).1,
   (c6_dedup_amended.2 [rA] [] 60 6 (by decide)).2⟩

/-- C6 counterexample: with requested limit 0 the scan accepts the first
candidate before testing the accepted count, so the output is longer than
the limit. -/
theorem c6_limit_counterexample :
    (rrf_fuse [rA] [] 60 0).length = 1 ∧ ¬ (rrf_fuse [rA] [] 60 0).length ≤ 0 := by
  exact ⟨by decide, by decide⟩

/-! ### Persistent store (lines 175-213 of the source)

SQLite tables become lists of rows kept in insertion order.  FTS5 assigns
a fresh monotonically increasing rowid to each inserted chunk; the model
carries the next free rowid in the state.  INSERT OR REPLACE on a primary
key replaces in place. -/

structure FileRow where
  path : String
  hash : String
  category : String
  updated_at : String
deriving DecidableEq, Repr

structure ChunkRow where
  rowid : Nat
  path : String
  category : String
  title : String
  content : String
deriving DecidableEq, Repr

structure MetaRow where
  rowid : Nat
  path : String
  line_start : Nat
  line_end : Nat
deriving DecidableEq, Repr

/-- One embeddings row; the little-endian float32 blob round-trips
exactly through the pack and unpack helpers of the source, so the model
stores the vector itself. -/
structure EmbRow where
  chunk_rowid : Nat
  embedding : List ℚ
  model : String
  content_hash : String
deriving DecidableEq, Repr

structure Db where
  files : List FileRow
  chunks : List ChunkRow
  chunks_meta : List MetaRow
  embeddings : List EmbRow
  vec_meta : List (String × String)
  next_rowid : Nat
deriving DecidableEq, Repr

/-- categorize_file from the source (lines 220-243): strip the memory
directory from the path and classify by prefix and substring rules. -/
def categorize_file (memoryDir filepath : String) : String :=
  let rel := pyReplace filepath (memoryDir ++ "/") ""
  if pyStartsWith rel "areas/projects/shared-db/" then "schema"
  else if pyStartsWith rel "areas/projects/" && strContainsStr rel "/rules.md" then "rules"
  else if pyStartsWith rel "areas/projects/" && strContainsStr rel "/summary.md" then
    "project-summary"
  else if pyStartsWith rel "areas/projects/" && strContainsStr rel "facts.json" then "facts"
  else if pyStartsWith rel "areas/patterns/" then "pattern"
  else if pyStartsWith rel "areas/tools/" then "tool"
  else if pyStartsWith rel "daily/" then "daily"
  else if pyStartsWith rel "sessions/" then "session"
  else if rel = "MEMORY.md" then "memory"
  else "other"

/-- INSERT OR REPLACE into files on the path primary key. -/
def filesUpsert (files : List FileRow) (row : FileRow) : List FileRow :=
  if files.any (fun f => f.path = row.path) then
    files.map (fun f => if f.path = row.path then row else f)
  else files ++ [row]

/-- index_file from the source (lines 341-390).  The file fingerprint
(os.stat), the raw text, and the parse outcome of json.loads enter as
arguments since they come from the filesystem and the standard library.
When the stored hash equals the fresh fingerprint nothing happens and 0
is returned; otherwise all rows of the path are deleted from chunks,
chunks_meta and embeddings, the file is re-chunked by suffix, fresh rows
are inserted, and the files row is replaced. -/
def index_file (memoryDir : String) (db : Db) (filepath content : String)
    (parsed : Option Json) (fingerprint now : String) : Except Unit (Nat × Db) :=
  let category := categorize_file memoryDir filepath
  let existing := (db.files.find? (fun f => f.path = filepath)).map (fun f => f.hash)
  if existing = some fingerprint then .ok (0, db)
  else do
    let oldRowids := (db.chunks.filter (fun c => c.path = filepath)).map (fun c => c.rowid)
    let chunks1 := db.chunks.filter (fun c => !(c.path = filepath : Bool))
    let meta1 := db.chunks_meta.filter (fun m => !(oldRowids.contains m.rowid))
    let emb1 := db.embeddings.filter (fun e => !(oldRowids.contains e.chunk_rowid))
    let newChunks ←
      if pyEndsWith filepath ".json" then chunk_json parsed content filepath
      else .ok (chunk_markdown content filepath 30)
    let numbered := (List.range newChunks.length).zip newChunks
    let chunkRows := numbered.map (fun p =>
      ChunkRow.mk (db.next_rowid + p.1) filepath category p.2.title p.2.content)
    let metaRows := numbered.map (fun p =>
      MetaRow.mk (db.next_rowid + p.1) filepath p.2.line_start p.2.line_end)
    .ok (newChunks.length,
      { files := filesUpsert db.files ⟨filepath, fingerprint, category, now⟩,
        chunks := chunks1 ++ chunkRows,
        chunks_meta := meta1 ++ metaRows,
        embeddings := emb1,
        vec_meta := db.vec_meta,
        next_rowid := db.next_rowid + newChunks.length })

/-- INSERT OR REPLACE into vec_meta on the key primary key. -/
def vecMetaUpsert (vm : List (String × String)) (key v : String) :
    List (String × String) :=
  if vm.any (fun p => p.1 = key) then
    vm.map (fun p => if p.1 = key then (key, v) else p)
  else vm ++ [(key, v)]

/-- INSERT OR REPLACE into embeddings on the chunk_rowid primary key. -/
def embUpsert (es : List EmbRow) (row : EmbRow) : List EmbRow :=
  if es.any (fun e => e.chunk_rowid = row.chunk_rowid) then
    es.map (fun e => if e.chunk_rowid = row.chunk_rowid then row else e)
  else es ++ [row]

/-- build_embeddings from the source (lines 393-456).  modelName is the
resolved name of the loaded provider model, none when the provider is
unavailable; embed is the batched provider call (Python zip truncates to
the shorter list, mirrored by List.zip); hash16 is the truncated md5
digest of the embedded text.  On a model change every stored embedding
row is deleted before anything is inserted and a full rebuild is forced. -/
def build_embeddings (db : Db) (modelName : Option String)
    (embed : List String → List (List ℚ)) (hash16 : String → String)
    (force : Bool) : Nat × Db :=
  match modelName with
  | none => (0, db)
  | some current =>
    let stored := (db.vec_meta.find? (fun p => p.1 = "model_name")).map (fun p => p.2)
    let modelChanged :=
      match stored with
      | some s => decide (s ≠ current)
      | none => false
    let emb0 := if modelChanged then [] else db.embeddings
    let force1 := force || modelChanged
    let vm1 := vecMetaUpsert db.vec_meta "model_name" current
    let rows :=
      if force1 then db.chunks
      else db.chunks.filter (fun c => !(emb0.any (fun e => e.chunk_rowid = c.rowid)))
    let db1 := { db with embeddings := emb0, vec_meta := vm1 }
    if rows.isEmpty then (0, db1)
    else
      let texts := rows.map (fun r => r.title ++ ": " ++ r.content)
      let embs := embed texts
      if embs.isEmpty then (0, db1)
      else
        let emb2 := ((rows.map (fun r => r.rowid)).zip (texts.zip embs)).foldl
          (fun acc t => embUpsert acc ⟨t.1, t.2.2, current, hash16 t.2.1⟩) emb0
        (embs.length, { db1 with embeddings := emb2 })

/-! ### Search (lines 571-679 and 766-821 of the source)

The FTS5 engine is external: whether the sanitized query parses, which
chunks match it at which bm25 rank, and the highlighted snippet, enter as
an oracle.  The SELECT orders matches by rank ascending and applies
LIMIT; SQLite tie order among equal ranks is modeled as table order. -/

structure FtsEngine where
  parseOk : String → Bool
  matchRank : String → ChunkRow → Option ℚ
  mkSnippet : String → ChunkRow → String

/-- Round half to even at four decimal places, the Python round(x, 4)
applied to scores before they are returned. -/
def round4 (q : ℚ) : ℚ :=
  let scaled := q * 10000
  let f := scaled.floor
  let r := scaled - f
  (if r < 1 / 2 then (f : ℚ)
   else if 1 / 2 < r then (f : ℚ) + 1
   else if f % 2 = 0 then (f : ℚ) else (f : ℚ) + 1) / 10000

/-- Stable insertion sort ascending by rank, ties in table order. -/
def insAscRank (x : ChunkRow × ℚ) : List (ChunkRow × ℚ) → List (ChunkRow × ℚ)
  | [] => [x]
  | y :: ys => if x.2 < y.2 then x :: y :: ys else y :: insAscRank x ys

def sortAscRank (l : List (ChunkRow × ℚ)) : List (ChunkRow × ℚ) :=
  l.foldl (fun acc x => insAscRank x acc) []

/-- bm25_search from the source: sanitize, run the MATCH query, order by
rank, limit, and shape the result rows; the engine rank is sign-flipped
into a positive score.  A query the engine rejects yields the empty list
plus a warning flag (the second component) instead of an error. -/
def bm25_search (memoryDir : String) (db : Db) (eng : FtsEngine) (query : String)
    (catFilter : Option String) (maxResults : Nat) : List SearchResult × Bool :=
  let sq := sanitize_fts_query query
  if !eng.parseOk sq then ([], true)
  else
    let matched := db.chunks.filterMap
      (fun c => (eng.matchRank sq c).map (fun r => (c, r)))
    let filtered :=
      match catFilter with
      | some f => matched.filter (fun p => p.1.category = f)
      | none => matched
    let top := (sortAscRank filtered).take maxResults
    (top.map (fun p =>
      { rowid := p.1.rowid,
        path := pyReplace p.1.path (memoryDir ++ "/") "",
        category := p.1.category,
        title := p.1.title,
        snippet := eng.mkSnippet sq p.1,
        content := p.1.content,
        score := round4 (-p.2),
        sources := [], rrf_score := 0, bm25_rank := none, vec_rank := none }), false)

/-- Dot product, the cosine similarity of the source under the provider
contract that vectors are unit-normalized. -/
def _cosine_similarity (a b : List ℚ) : ℚ :=
  ((a.zip b).map (fun p => p.1 * p.2)).sum

/-- Stable insertion sort descending by score, like Python list.sort with
reverse True. -/
def insDescScore (x : SearchResult) : List SearchResult → List SearchResult
  | [] => [x]
  | y :: ys => if y.score < x.score then x :: y :: ys else y :: insDescScore x ys

def sortDescScore (l : List SearchResult) : List SearchResult :=
  l.foldl (fun acc x => insDescScore x acc) []

/-- vector_search from the source: with no query embedding the result is
empty; otherwise join embeddings with chunks, filter by category, score
by dot product, sort descending and truncate.  The snippet is a plain
200-character content prefix. -/
def vector_search (memoryDir : String) (db : Db) (queryVec : Option (List ℚ))
    (catFilter : Option String) (maxResults : Nat) : List SearchResult :=
  match queryVec with
  | none => []
  | some qv =>
    let joined : List (EmbRow × ChunkRow) := db.embeddings.filterMap (fun e =>
      (db.chunks.find? (fun c => c.rowid = e.chunk_rowid)).map (fun c => (e, c)))
    let rows : List (EmbRow × ChunkRow) :=
      match catFilter with
      | some f => joined.filter (fun p => p.2.category = f)
      | none => joined
    if rows.isEmpty then []
    else
      let scored := rows.map (fun p =>
        ({ rowid := p.1.chunk_rowid,
           path := pyReplace p.2.path (memoryDir ++ "/") "",
           category := p.2.category,
           title := p.2.title,
           snippet := pyTake p.2.content 200,
           content := p.2.content,
           score := round4 (_cosine_similarity qv p.1.embedding),
           sources := [], rrf_score := 0, bm25_rank := none,
           vec_rank := none } : SearchResult))
      (sortDescScore scored).take maxResults

def MAX_RESULTS : Nat := 6

def BM25_CANDIDATES : Nat := 20

def VECTOR_CANDIDATES : Nat := 20

def RRF_K : ℚ := 60

/-- Source tag applied by the bm25 and degraded-hybrid paths of search. -/
def tagBm25 (l : List SearchResult) : List SearchResult :=
  l.map (fun r => { r with sources := ["bm25"] })

/-- Source tag applied by the vector path of search. -/
def tagVector (l : List SearchResult) : List SearchResult :=
  l.map (fun r => { r with sources := ["vector"] })

/-- The mode dispatch of search (lines 795-821 of the source), applied to
the synced store.  Both compared modes run the same incremental sync
first, and with an unavailable provider build_embeddings leaves the store
untouched, so the db argument is the common post-sync state. -/
def search_results (memoryDir : String) (db : Db) (eng : FtsEngine)
    (queryVec : Option (List ℚ)) (query : String) (catFilter : Option String)
    (maxResults : Nat) (mode : String) : List SearchResult :=
  if mode = "bm25" then
    (tagBm25 (bm25_search memoryDir db eng query catFilter maxResults).1).take maxResults
  else if mode = "vector" then
    (tagVector (vector_search memoryDir db queryVec catFilter maxResults)).take maxResults
  else
    let b := (bm25_search memoryDir db eng query catFilter BM25_CANDIDATES).1
    let v := vector_search memoryDir db queryVec catFilter VECTOR_CANDIDATES
    if v.isEmpty then (tagBm25 b).take maxResults
    else rrf_fuse b v RRF_K maxResults

/-! ### Claim C8 -/

/-- C8: when the stored fingerprint of a path equals the freshly
recomputed one, index_file returns 0 and leaves every table of the store
unchanged: no deletion, no re-chunking, no insertion. -/
theorem c8_fingerprint_gating (memoryDir : String) (db : Db)
    (filepath content : String) (parsed : Option Json) (fingerprint now : String)
    (h : (db.files.find? (fun f => f.path = filepath)).map (fun f => f.hash) =
      some fingerprint) :
    index_file memoryDir db filepath content parsed fingerprint now = .ok (0, db) := by
  unfold index_file
  simp only [h]
  rw [if_pos trivial]

/-- A one-file store for the witnesses below. -/
def cDb8 : Db :=
  ⟨[⟨"/m/daily/a.md", "100.0:5", "daily", "2026-01-01"⟩],
   [⟨1, "/m/daily/a.md", "daily", "a.md", "this content is long enough."⟩],
   [⟨1, "/m/daily/a.md", 1, 1⟩], [], [("model_name", "M1")], 2⟩

/-- Witness for C8 at a concrete store with a matching fingerprint. -/
theorem c8_fingerprint_gating_witness :
    ((cDb8.files.find? (fun f => f.path = "/m/daily/a.md")).map (fun f => f.hash) =
      some "100.0:5") ∧
    index_file "/m" cDb8 "/m/daily/a.md" "ignored" none "100.0:5" "2026-02-02" =
      .ok (0, cDb8) :=
  ⟨by decide,
   c8_fingerprint_gating "/m" cDb8 "/m/daily/a.md" "ignored" none "100.0:5" "2026-02-02"
     (by decide)⟩

/-! ### Claim C9 -/

/-- C9: when the engine rejects the sanitized query, bm25_search returns
the empty result list with the warning flag set, and in particular does
not propagate the failure. -/
theorem c9_query_syntax_error (memoryDir : String) (db : Db) (eng : FtsEngine)
    (query : String) (catFilter : Option String) (maxResults : Nat)
    (h : eng.parseOk (sanitize_fts_query query) = false) :
    bm25_search memoryDir db eng query catFilter maxResults = ([], true) := by
  simp [bm25_search, h]

/-- An engine that rejects every query. -/
def cEngNoParse : FtsEngine := ⟨fun _ => false, fun _ _ => none, fun _ _ => ""⟩

/-- Witness for C9 with an engine rejecting the sanitized query. -/
theorem c9_query_syntax_error_witness :
    cEngNoParse.parseOk (sanitize_fts_query "cache") = false ∧
    bm25_search "/m" cDb8 cEngNoParse "cache" none 6 = ([], true) :=
  ⟨rfl, c9_query_syntax_error "/m" cDb8 cEngNoParse "cache" none 6 rfl⟩

/-! ### Claim C3 -/

lemma mem_embUpsert (es : List EmbRow) (row e : EmbRow)
    (h : e ∈ embUpsert es row) : e ∈ es ∨ e = row := by
  unfold embUpsert at h
  by_cases hc : (es.any (fun x => x.chunk_rowid = row.chunk_rowid)) = true
  · rw [if_pos hc] at h
    obtain ⟨x, hx, hxe⟩ := List.mem_map.mp h
    by_cases hxr : (x.chunk_rowid = row.chunk_rowid)
    · rw [if_pos hxr] at hxe
      exact Or.inr hxe.symm
    · rw [if_neg hxr] at hxe
      exact Or.inl (hxe ▸ hx)
  · rw [if_neg hc] at h
    rcases List.mem_append.mp h with h' | h'
    · exact Or.inl h'
    · exact Or.inr (List.mem_singleton.mp h')

lemma foldl_embUpsert_model (current : String) (hash16 : String → String) :
    ∀ (triples : List (Nat × (String × List ℚ))) (acc : List EmbRow),
      (∀ e ∈ acc, e.model = current) →
      ∀ e ∈ triples.foldl
          (fun acc t => embUpsert acc ⟨t.1, t.2.2, current, hash16 t.2.1⟩) acc,
        e.model = current := by
  intro triples
  induction triples with
  | nil => intro acc hacc e he; exact hacc e he
  | cons t ts ih =>
    intro acc hacc e he
    rw [List.foldl_cons] at he
    refine ih _ ?_ e he
    intro x hx
    rcases mem_embUpsert _ _ _ hx with h' | h'
    · exact hacc x h'
    · rw [h']

/-- C3: with a stored model name different from the resolved one, and a
provider returning one vector per chunk, after build_embeddings every
embeddings row carries the new model name: the old rows are deleted
before any insertion and the store never holds two models at once. -/
theorem c3_model_switch_invalidation (db : Db) (m s : String)
    (embed : List String → List (List ℚ)) (hash16 : String → String) (force : Bool)
    (hs : (db.vec_meta.find? (fun p => p.1 = "model_name")).map (fun p => p.2) =
      some s)
    (hne : s ≠ m)
    (hembed : ∀ ts : List String, (embed ts).length = ts.length) :
    ∀ e ∈ (build_embeddings db (some m) embed hash16 force).2.embeddings,
      e.model = m := by
  intro e he
  unfold build_embeddings at he
  rw [hs] at he
  simp only [decide_eq_true_eq] at he
  rw [if_pos hne] at he
  rw [show (decide (s ≠ m)) = true from decide_eq_true hne, Bool.or_true] at he
  rw [if_pos rfl] at he
  by_cases hrows : db.chunks.isEmpty = true
  · rw [if_pos hrows] at he
    simp at he
  · rw [if_neg hrows] at he
    by_cases hembs :
        (embed (db.chunks.map (fun r => r.title ++ ": " ++ r.content))).isEmpty = true
    · rw [if_pos hembs] at he
      simp at he
    · rw [if_neg hembs] at he
      simp only [] at he
      exact foldl_embUpsert_model m hash16 _ [] (by simp) e he

/-- One-chunk store with a stored model name M1. -/
def cDb3 : Db :=
  ⟨[⟨"/m/daily/a.md", "100.0:5", "daily", "2026-01-01"⟩],
   [⟨1, "/m/daily/a.md", "daily", "a.md", "this content is long enough."⟩],
   [⟨1, "/m/daily/a.md", 1, 1⟩],
   [⟨1, [1, 0], "M1", "h1"⟩], [("model_name", "M1")], 2⟩

/-- A provider returning one fixed vector per input text. -/
def cEmbed (ts : List String) : List (List ℚ) := ts.map (fun _ => [1, 0])

/-- Witness for C3: switching the stored model M1 to the resolved model
M2 leaves only M2 rows. -/
theorem c3_model_switch_invalidation_witness :
    ((cDb3.vec_meta.find? (fun p => p.1 = "model_name")).map (fun p => p.2) =
      some "M1") ∧
    (⟨1, [1, 0], "M2", "h"⟩ : EmbRow).model = "M2" :=
  ⟨by decide,
   c3_model_switch_invalidation cDb3 "M2" "M1" cEmbed (fun _ => "h") false
     (by decide) (by decide) (fun ts => by simp [cEmbed])
     ⟨1, [1, 0], "M2", "h"⟩ (by decide)⟩

/-! ### Claim C4 -/

/-- With the provider unavailable build_embeddings is a no-op, so the
store state at query time is the same in both compared modes. -/
lemma build_embeddings_unavailable (db : Db)
    (embed : List String → List (List ℚ)) (hash16 : String → String) (force : Bool) :
    build_embeddings db none embed hash16 force = (0, db) := rfl

lemma bm25_search_take (memoryDir : String) (db : Db) (eng : FtsEngine)
    (query : String) (catFilter : Option String) (m n : Nat) (hmn : m ≤ n) :
    (bm25_search memoryDir db eng query catFilter m).1 =
      ((bm25_search memoryDir db eng query catFilter n).1).take m := by
  unfold bm25_search
  by_cases h : (!eng.parseOk (sanitize_fts_query query)) = true
  · rw [if_pos h, if_pos h]
    simp
  · rw [if_neg h, if_neg h]
    simp only [List.map_take, List.take_take, min_eq_left hmn]

/-- C4 amended: with the query embedding unavailable (vector_search
returns the empty list), hybrid mode returns exactly the bm25-mode result
list for the same query, category filter and limit, every item tagged as
lexical-only, provided the limit does not exceed the 20-result lexical
candidate window; for larger limits the degraded hybrid path is capped at
20 rows while bm25 mode is not (see the counterexample). -/
theorem c4_degraded_hybrid_amended (memoryDir : String) (db : Db) (eng : FtsEngine)
    (query : String) (catFilter : Option String) (maxResults : Nat)
    (hm : maxResults ≤ BM25_CANDIDATES) :
    search_results memoryDir db eng none query catFilter maxResults "hybrid" =
      search_results memoryDir db eng none query catFilter maxResults "bm25" ∧
    ∀ r ∈ search_results memoryDir db eng none query catFilter maxResults "hybrid",
      r.sources = ["bm25"] := by
  have hhyb : search_results memoryDir db eng none query catFilter maxResults "hybrid" =
      (tagBm25 (bm25_search memoryDir db eng query catFilter BM25_CANDIDATES).1).take
        maxResults := by
    unfold search_results
    rw [if_neg (by decide), if_neg (by decide)]
    rw [show vector_search memoryDir db none catFilter VECTOR_CANDIDATES = [] from rfl]
    simp
  constructor
  · rw [hhyb]
    unfold search_results
    rw [if_pos rfl]
    rw [bm25_search_take memoryDir db eng query catFilter maxResults BM25_CANDIDATES hm]
    unfold tagBm25
    simp only [List.map_take, List.take_take, min_self]
  · rw [hhyb]
    intro r hr
    have hr' := List.mem_of_mem_take hr
    obtain ⟨x, _, hxe⟩ := List.mem_map.mp hr'
    rw [← hxe]

/-- Store with 21 matching chunks, used to break the claim at limit 21. -/
def cDb4 : Db :=
  ⟨[], (List.range 21).map (fun i => ⟨i, "/m/p.md", "other", "t", "c"⟩), [], [], [], 21⟩

/-- Engine matching every chunk, ranked by rowid. -/
def cEngAll : FtsEngine :=
  ⟨fun _ => true, fun _ c => some (c.rowid : ℚ), fun _ c => c.content⟩

/-- C4 counterexample: at limit 21 with 21 matching chunks and the
provider unavailable, degraded hybrid returns 20 rows but bm25 mode
returns 21, so the two modes do not agree for every limit. -/
theorem c4_degraded_hybrid_counterexample :
    (search_results "/m" cDb4 cEngAll none "q" none 21 "hybrid").length = 20 ∧
    (search_results "/m" cDb4 cEngAll none "q" none 21 "bm25").length = 21 := by
  exact ⟨by decide, by decide⟩

/-- Witness for the amended C4 at the stock result limit 6. -/
theorem c4_degraded_hybrid_witness :
    (6 ≤ BM25_CANDIDATES) ∧
    search_results "/m" cDb4 cEngAll none "q" none 6 "hybrid" =
      search_results "/m" cDb4 cEngAll none "q" none 6 "bm25" :=
  ⟨by decide, (c4_degraded_hybrid_amended "/m" cDb4 cEngAll "q" none 6 (by decide)).1⟩

end MemorySearch
